import Mathlib

/-!
Verification of the bazelrc parser (src/parser.rs) and the flag index
(src/bazel_flags.rs) of the bazelrc-lsp repository.

The parser in src/parser.rs is written with the chumsky parser-combinator
library over a `char` stream.  We shallowly embed the chumsky combinators
actually used by the source as functions
`List Char → Nat → Option (α × Nat)`: the parser reads the input list from
the given position and either fails (`none`) or returns a value together
with the position after the consumed region.  Chumsky alternation (`or`)
backtracks on failure, `repeated` is greedy, and spans produced by
`map_with_span` are the positions before and after the consumed region;
all of that is mirrored directly.  `repeated`/`separated_by` loops are
implemented with explicit fuel `inp.length + 1`; every repeated item of the
grammar consumes at least one character on success, so the fuel is never
exhausted on the positions the parser can actually reach.

Spans count characters of the input (chumsky runs over a `char` stream, so
the `Range<usize>` spans of the Rust code are char offsets as well).
-/

set_option maxRecDepth 8000

namespace Bazelrc

/-- Half-open source interval, mirroring `pub type Span = std::ops::Range<usize>`
in src/parser.rs.  The `end` field of the Rust range is called `stop` here
because `end` is a Lean keyword. -/
structure Span where
  start : Nat
  stop : Nat
deriving DecidableEq, Repr

/-- Spanned value, mirroring `pub type Spanned<T> = (T, Span)`. -/
abbrev Spanned (α : Type) := α × Span

/-- A parsed line, mirroring `pub struct Line` in src/parser.rs.  The field
defaults mirror `#[derive(Default)]` (a default `Range<usize>` is `0..0`). -/
structure Line where
  command : Option (Spanned String) := none
  config : Option (Spanned String) := none
  flags : List (Spanned String) := []
  comment : Option (Spanned String) := none
  span : Span := ⟨0, 0⟩
deriving DecidableEq, Repr

/-- Shallow embedding of a chumsky parser over a `char` stream: from the
input and a position, either fail or return an output and the position
after the consumed region. -/
def P (α : Type) : Type := List Char → Nat → Option (α × Nat)

/-- Embedding of chumsky `filter`: consume one character satisfying the
predicate. -/
def pfilter (f : Char → Bool) : P Char := fun inp pos =>
  match inp.get? pos with
  | some c => if f c then some (c, pos + 1) else none
  | none => none

/-- Embedding of chumsky `just(c)`. -/
def pjust (c : Char) : P Char := pfilter (fun d => d == c)

/-- Embedding of chumsky `one_of(s)`. -/
def poneOf (s : List Char) : P Char := pfilter (fun c => s.contains c)

/-- Embedding of chumsky `map`. -/
def pmap {α β : Type} (p : P α) (f : α → β) : P β := fun inp pos =>
  match p inp pos with
  | some (a, pos1) => some (f a, pos1)
  | none => none

/-- Embedding of chumsky `to(b)`. -/
def pto {α β : Type} (p : P α) (b : β) : P β := pmap p (fun _ => b)

/-- Embedding of chumsky `or`: ordered choice with backtracking. -/
def por {α : Type} (p q : P α) : P α := fun inp pos =>
  match p inp pos with
  | some r => some r
  | none => q inp pos

/-- Embedding of chumsky `then`: sequence two parsers, pairing outputs. -/
def pthen {α β : Type} (p : P α) (q : P β) : P (α × β) := fun inp pos =>
  match p inp pos with
  | some (a, pos1) =>
    match q inp pos1 with
    | some (b, pos2) => some ((a, b), pos2)
    | none => none
  | none => none

/-- Embedding of chumsky `ignore_then`. -/
def pignoreThen {α β : Type} (p : P α) (q : P β) : P β := pmap (pthen p q) (fun x => x.2)

/-- Embedding of chumsky `then_ignore`. -/
def pthenIgnore {α β : Type} (p : P α) (q : P β) : P α := pmap (pthen p q) (fun x => x.1)

/-- Embedding of chumsky `ignored`. -/
def pignored {α : Type} (p : P α) : P Unit := pto p ()

/-- Embedding of chumsky `or_not`: optional parser, backtracking fully on
failure. -/
def pornot {α : Type} (p : P α) : P (Option α) := fun inp pos =>
  match p inp pos with
  | some (a, pos1) => some (some a, pos1)
  | none => some (none, pos)

/-- Embedding of chumsky `rewind`: parse, then reset the position. -/
def prewind {α : Type} (p : P α) : P α := fun inp pos =>
  match p inp pos with
  | some (a, _) => some (a, pos)
  | none => none

/-- Embedding of chumsky `end()`: succeed exactly at the end of input. -/
def pend : P Unit := fun inp pos =>
  if pos = inp.length then some ((), pos) else none

/-- Embedding of chumsky `not()`: succeed, returning the next input
character, exactly when the inner parser fails (and input remains). -/
def pnot {α : Type} (p : P α) : P Char := fun inp pos =>
  match p inp pos with
  | some _ => none
  | none =>
    match inp.get? pos with
    | some c => some (c, pos + 1)
    | none => none

/-- Greedy repetition loop with explicit fuel (the loop of chumsky
`repeated`).  Never fails; stops at the first item failure. -/
def prepeatedCore {α : Type} (p : P α) : Nat → List Char → Nat → List α × Nat
  | 0, _, pos => ([], pos)
  | fuel + 1, inp, pos =>
    match p inp pos with
    | none => ([], pos)
    | some (a, pos1) =>
      let r := prepeatedCore p fuel inp pos1
      (a :: r.1, r.2)

/-- Embedding of chumsky `repeated().at_least(n)`: greedy repetition, then
the minimum-count check. -/
def patLeast {α : Type} (p : P α) (n : Nat) : P (List α) := fun inp pos =>
  if n ≤ (prepeatedCore p (inp.length + 1) inp pos).1.length then
    some (prepeatedCore p (inp.length + 1) inp pos)
  else none

/-- Tail loop of chumsky `separated_by`: repeatedly parse a separator
followed by an item, backtracking the separator when the following item
fails. -/
def psepByTail {α β : Type} (item : P α) (sep : P β) : Nat → List Char → Nat → List α × Nat
  | 0, _, pos => ([], pos)
  | fuel + 1, inp, pos =>
    match sep inp pos with
    | none => ([], pos)
    | some (_, pos1) =>
      match item inp pos1 with
      | none => ([], pos)
      | some (a, pos2) =>
        let r := psepByTail item sep fuel inp pos2
        (a :: r.1, r.2)

/-- Optional separator attempt of `separated_by`, used for the
`allow_leading` and `allow_trailing` switches: when enabled, try the
separator once and keep it on success; never fail. -/
def psepOpt {β : Type} (sep : P β) (enabled : Bool) : P Unit := fun inp pos =>
  if enabled then
    match sep inp pos with
    | some (_, p1) => some ((), p1)
    | none => some ((), pos)
  else some ((), pos)

/-- The item loop of `separated_by`: an optional first item followed by
(separator, item) rounds; never fails (`at_least(0)` default). -/
def psepItems {α β : Type} (item : P α) (sep : P β) : P (List α) := fun inp pos =>
  match item inp pos with
  | none => some ([], pos)
  | some (a, pos1) =>
    some (a :: (psepByTail item sep (inp.length + 1) inp pos1).1,
      (psepByTail item sep (inp.length + 1) inp pos1).2)

/-- Embedding of chumsky `separated_by(sep)` with the `allow_leading` /
`allow_trailing` switches. -/
def psepBy {α β : Type} (item : P α) (sep : P β) (allowLeading allowTrailing : Bool) :
    P (List α) :=
  pthenIgnore (pignoreThen (psepOpt sep allowLeading) (psepItems item sep))
    (psepOpt sep allowTrailing)

/-- Embedding of chumsky `map_with_span`: the span is the pair of positions
around the consumed region. -/
def pmapWithSpan {α β : Type} (p : P α) (f : α → Span → β) : P β := fun inp pos =>
  match p inp pos with
  | some (a, pos1) => some (f a ⟨pos, pos1⟩, pos1)
  | none => none

/-! The grammar of `pub fn parser()` in src/parser.rs, one definition per
`let` binding of the Rust function, with the source's names. -/

/-- The token separators: `" \t\r\n\"\'#"`. -/
def specialchars : List Char := [' ', '\t', '\r', '\n', '"', '\'', '#']

/-- All characters except separators and `\` are part of tokens. -/
def raw_token_char : P Char :=
  pfilter (fun c => c != '\\' && !(specialchars.contains c))

/-- Characters escaped with `\` (except newlines). -/
def escaped_char : P Char :=
  pignoreThen (pjust '\\') (pfilter (fun c => c != '\n' && c != '\r'))

/-- A newline, Windows or Unix. -/
def newline : P Char :=
  por (pjust '\n') (pignoreThen (pjust '\r') (pjust '\n'))

/-- An escaped newline; contributes no characters to the token value. -/
def escaped_newline : P Char := pignoreThen (pjust '\\') newline

/-- A token character: raw, escaped, or an escaped newline (the latter
mapped to `none`). -/
def token_char : P (Option Char) :=
  por (pmap (por raw_token_char escaped_char) Option.some)
    (pto escaped_newline (none : Option Char))

/-- A token consists of multiple token characters. -/
def unquoted_token_raw : P (List (Option Char)) := patLeast token_char 1

/-- Quoted tokens with `"`. -/
def dquoted_token_raw : P (List (Option Char)) :=
  pthenIgnore
    (pignoreThen (pjust '"')
      (patLeast (por token_char (pmap (poneOf [' ', '\t', '\'', '#']) Option.some)) 0))
    (pjust '"')

/-- Quoted tokens with `'`. -/
def squoted_token_raw : P (List (Option Char)) :=
  pthenIgnore
    (pignoreThen (pjust '\'')
      (patLeast (por token_char (pmap (poneOf [' ', '\t', '"', '#']) Option.some)) 0))
    (pjust '\'')

/-- Quoted tokens, either kind. -/
def quoted_token_raw : P (List (Option Char)) := por dquoted_token_raw squoted_token_raw

/-- Mixed tokens, consisting of both quoted and unquoted parts; the decoded
value drops the `none` placeholders of escaped newlines. -/
def mixed_token : P String :=
  pmap (patLeast (por unquoted_token_raw quoted_token_raw) 1)
    (fun vss => String.mk (vss.flatten.filterMap id))

/-- Tokens are separated by whitespace. -/
def separator : P Unit := pignored (patLeast (poneOf [' ', '\t']) 1)

/-- Comments run to the end of the line; a newline may be escaped with `\`
(the escaped-newline parser outputs the newline character, which therefore
lands in the collected comment text). -/
def comment : P (Spanned String) :=
  pmapWithSpan
    (pmap
      (pignoreThen (pjust '#')
        (patLeast (por escaped_newline (pnot (poneOf ['\n', '\r']))) 0))
      (fun cs => String.mk cs))
    (fun v sp => (v, sp))

/-- A list of flags. -/
def flags_list : P (List (Spanned String)) :=
  psepBy (pmapWithSpan mixed_token (fun v sp => (v, sp))) separator true true

/-- The command name that might start a line: a nonempty run of alphabetic
characters. -/
def command_name : P (Spanned String) :=
  pmapWithSpan
    (pmap (patLeast (pfilter Char.isAlpha) 1) (fun cs => String.mk cs))
    (fun v sp => (v, sp))

/-- `command` or `command:config`, followed by whitespace, a (rewound)
newline, or the end of input. -/
def command_specifier : P (Spanned String × Option (Spanned String)) :=
  pthenIgnore
    (pthen (pignoreThen (pornot separator) command_name)
      (pornot (pmapWithSpan (pignoreThen (pjust ':') mixed_token) (fun v sp => (v, sp)))))
    (por (por separator (pignored (prewind newline))) pend)

/-- The content of a single line, assembled into a `Line` record. -/
def line_content : P Line :=
  pmap
    (pthen
      (pmapWithSpan (pthen (pornot command_specifier) flags_list) (fun v sp => (v, sp)))
      (pornot comment))
    (fun x =>
      let cc := x.1.1.1
      let tokens := x.1.1.2
      let sp := x.1.2
      let cmt := x.2
      { command := cc.map Prod.fst
        config := Option.join (cc.map Prod.snd)
        flags := tokens
        comment := cmt
        span := sp })

/-- The whole-file parser: lines separated by newlines, then end of input. -/
def parser : P (List Line) :=
  pthenIgnore (psepBy line_content newline false false) pend

/-- Running the parser on a source string, as `parser().parse(s)` does:
`none` corresponds to the chumsky `Err(Vec<Simple<char>>)` outcome. -/
def parse (s : String) : Option (List Line) :=
  match parser s.data 0 with
  | some (v, _) => some v
  | none => none

/-! The flag index of src/bazel_flags.rs.  Only the fields of the protobuf
`FlagInfo` message that the indexing functions read are modelled; the
documentation/tag fields are irrelevant to the lookup behaviour.  The Rust
`HashMap` is modelled as an association list where `insert` prepends and
`lookup` takes the first match, which reproduces the overwrite-on-insert
semantics of `HashMap::insert`. -/

/-- Flag metadata, mirroring the fields of `FlagInfo` used by
`src/bazel_flags.rs` (name, abbreviation and applicable commands). -/
structure FlagInfo where
  name : String
  abbreviation : Option String := none
  commands : List String := []
deriving DecidableEq, Repr

/-- Association-list model of `HashMap::insert`: the new binding shadows
any previous binding of the same key. -/
def hmInsert {α : Type} (m : List (String × α)) (k : String) (v : α) : List (String × α) :=
  (k, v) :: m

/-- Association-list model of `HashMap::get`. -/
def hmLookup {α : Type} (m : List (String × α)) (k : String) : Option α :=
  (m.find? (fun p => p.1 == k)).map (fun p => p.2)

/-- The flag index, mirroring `pub struct BazelFlags`. -/
structure BazelFlags where
  flags : List FlagInfo
  flags_by_commands : List (String × List Nat)
  flags_by_name : List (String × Nat)
  flags_by_abbreviation : List (String × Nat)
deriving Repr

/-- Accumulator of the `from_flags` loop: the three maps under
construction. -/
abbrev FlagMaps := List (String × List Nat) × List (String × Nat) × List (String × Nat)

/-- One iteration of the `for (i, f)` loop of `BazelFlags::from_flags`. -/
def from_flags_step (acc : FlagMaps) (p : Nat × FlagInfo) : FlagMaps :=
  let byCmd := p.2.commands.foldl
    (fun m c => hmInsert m c ((hmLookup m c).getD [] ++ [p.1])) acc.1
  let byName := hmInsert acc.2.1 p.2.name p.1
  let byAbbr :=
    match p.2.abbreviation with
    | some a => hmInsert acc.2.2 a p.1
    | none => acc.2.2
  (byCmd, byName, byAbbr)

/-- Mirror of `BazelFlags::from_flags`: index the flag list by command,
name and abbreviation, storing positions into the `flags` vector. -/
def from_flags (flags : List FlagInfo) : BazelFlags :=
  let maps := flags.enum.foldl from_flags_step ([], [], [])
  { flags := flags
    flags_by_commands := maps.1
    flags_by_name := maps.2.1
    flags_by_abbreviation := maps.2.2 }

/-- Mirror of `s.strip_suffix("=").unwrap_or(s)`. -/
def rustStripSuffixEq (s : List Char) : List Char :=
  if s.getLast? = some '=' then s.dropLast else s

/-- Mirror of `BazelFlags::get_by_invocation`.  The result is layered:
`none` marks the `flags.get(*i).unwrap()` panic (index out of bounds),
`some r` is the Rust return value `r : Option<&FlagInfo>`. -/
def get_by_invocation (bf : BazelFlags) (s : String) : Option (Option FlagInfo) :=
  match rustStripSuffixEq s.data with
  | '-' :: '-' :: long_name =>
    if long_name.head? = some '-' then some none
    else
      match hmLookup bf.flags_by_name (String.mk long_name) with
      | none => some none
      | some i =>
        match bf.flags.get? i with
        | some f => some (some f)
        | none => none
  | '-' :: abbr =>
    if abbr.head? = some '-' then some none
    else
      match hmLookup bf.flags_by_abbreviation (String.mk abbr) with
      | none => some none
      | some i =>
        match bf.flags.get? i with
        | some f => some (some f)
        | none => none
  | _ => some none

/-! Definitions taken from the specification's own words, used only to
compare the code's behaviour against the spec (refinement checks).  They
are not translations of the source. -/

/-- Decode rules of spec section 4.1, applied to a raw source slice: quote
removal, backslash-escape resolution and continuation removal.  The state
records the currently open quote character, if any; `none` output marks a
slice the rules reject (unterminated quote, bare terminator inside a quote,
or an unquoted separator, which cannot occur inside a single token's
slice). -/
def specDecodeCore : Option Char → List Char → Option (List Char)
  | none, [] => some []
  | some _, [] => none
  | st, '\\' :: '\r' :: '\n' :: rest => specDecodeCore st rest
  | st, '\\' :: '\n' :: rest => specDecodeCore st rest
  | st, '\\' :: c :: rest => (specDecodeCore st rest).map (fun l => c :: l)
  | _, ['\\'] => none
  | none, '"' :: rest => specDecodeCore (some '"') rest
  | none, '\'' :: rest => specDecodeCore (some '\'') rest
  | some q, c :: rest =>
    if c = q then specDecodeCore none rest
    else if c = '\n' ∨ c = '\r' then none
    else (specDecodeCore (some q) rest).map (fun l => c :: l)
  | none, c :: rest =>
    if c = '\n' ∨ c = '\r' ∨ c = ' ' ∨ c = '\t' ∨ c = '#' then none
    else (specDecodeCore none rest).map (fun l => c :: l)

/-- Decode a raw token slice by the spec's section 4.1 rules. -/
def specDecodeToken (s : List Char) : Option (List Char) := specDecodeCore none s

/-- Count of unescaped line terminators of a source string, following the
spec's wording: both `\n` and `\r\n` are terminators, and a
backslash-escaped terminator (a continuation) is not counted. -/
def specLineTerminatorCount : List Char → Nat
  | [] => 0
  | '\\' :: '\r' :: '\n' :: rest => specLineTerminatorCount rest
  | '\\' :: _ :: rest => specLineTerminatorCount rest
  | '\r' :: '\n' :: rest => 1 + specLineTerminatorCount rest
  | '\n' :: rest => 1 + specLineTerminatorCount rest
  | _ :: rest => specLineTerminatorCount rest

/-! Span well-formedness: every span produced by the parser lies inside the
source.  `POutOK p Q` says that whenever `p` succeeds from an in-bounds
position, its output satisfies `Q` and the final position moved forward and
stayed in bounds; the lemmas below prove it for every combinator used by
the grammar and compose them up to `parse`. -/

/-- A span lies inside a source of the given length. -/
def SpanOK (len : Nat) (sp : Span) : Prop := sp.start ≤ sp.stop ∧ sp.stop ≤ len

/-- A spanned string whose span lies inside the source. -/
def SpannedOK (len : Nat) (x : Spanned String) : Prop := SpanOK len x.2

/-- All spans of a `Line` record lie inside the source. -/
def LineOK (len : Nat) (l : Line) : Prop :=
  (∀ x ∈ l.command, SpannedOK len x) ∧ (∀ x ∈ l.config, SpannedOK len x) ∧
  (∀ x ∈ l.flags, SpannedOK len x) ∧ (∀ x ∈ l.comment, SpannedOK len x) ∧
  SpanOK len l.span

/-- Success of a parser from an in-bounds position yields output satisfying
`Q` and an in-bounds, non-decreasing final position. -/
def POutOK {α : Type} (p : P α) (Q : Nat → α → Prop) : Prop :=
  ∀ inp pos a pos', pos ≤ inp.length → p inp pos = some (a, pos') →
    Q inp.length a ∧ pos ≤ pos' ∧ pos' ≤ inp.length

/-- All indices of the per-command map are below `N`. -/
def CmdIdxBelow (N : Nat) (m : List (String × List Nat)) : Prop :=
  ∀ p ∈ m, ∀ i ∈ p.2, i < N

/-- All indices of a name or abbreviation map are below `N`. -/
def NameIdxBelow (N : Nat) (m : List (String × Nat)) : Prop :=
  ∀ p ∈ m, p.2 < N

theorem POutOK.weaken {α : Type} {p : P α} {Q R : Nat → α → Prop} (hp : POutOK p Q)
    (h : ∀ len a, Q len a → R len a) : POutOK p R := by
  intro inp pos a pos' hpos hs
  obtain ⟨hQ, h1, h2⟩ := hp inp pos a pos' hpos hs
  exact ⟨h _ _ hQ, h1, h2⟩

theorem pfilter_out (f : Char → Bool) : POutOK (pfilter f) (fun _ _ => True) := by
  intro inp pos a pos' hpos hs
  unfold pfilter at hs
  split at hs
  · rename_i c hg
    split at hs
    · obtain ⟨rfl, rfl⟩ := Prod.mk.inj (Option.some.inj hs)
      exact ⟨trivial, Nat.le_succ pos, (List.get?_eq_some.mp hg).1⟩
    · cases hs
  · cases hs

theorem pjust_out (c : Char) : POutOK (pjust c) (fun _ _ => True) := pfilter_out _

theorem poneOf_out (s : List Char) : POutOK (poneOf s) (fun _ _ => True) := pfilter_out _

theorem pmap_out {α β : Type} {p : P α} {Q : Nat → α → Prop} (hp : POutOK p Q)
    (f : α → β) {R : Nat → β → Prop} (hf : ∀ len a, Q len a → R len (f a)) :
    POutOK (pmap p f) R := by
  intro inp pos b pos' hpos hs
  unfold pmap at hs
  split at hs
  · rename_i a p1 he
    obtain ⟨rfl, rfl⟩ := Prod.mk.inj (Option.some.inj hs)
    obtain ⟨hQ, h1, h2⟩ := hp inp pos a p1 hpos he
    exact ⟨hf _ _ hQ, h1, h2⟩
  · cases hs

theorem por_out {α : Type} {p q : P α} {Q : Nat → α → Prop}
    (hp : POutOK p Q) (hq : POutOK q Q) : POutOK (por p q) Q := by
  intro inp pos a pos' hpos hs
  unfold por at hs
  split at hs
  · rename_i r he
    cases hs
    exact hp inp pos a pos' hpos he
  · rename_i he
    exact hq inp pos a pos' hpos hs

theorem pthen_out {α β : Type} {p : P α} {q : P β} {Q : Nat → α → Prop}
    {R : Nat → β → Prop} (hp : POutOK p Q) (hq : POutOK q R) :
    POutOK (pthen p q) (fun len x => Q len x.1 ∧ R len x.2) := by
  intro inp pos ab pos' hpos hs
  unfold pthen at hs
  split at hs
  · rename_i a p1 he
    split at hs
    · rename_i b p2 he2
      obtain ⟨rfl, rfl⟩ := Prod.mk.inj (Option.some.inj hs)
      obtain ⟨hQ, h1, h2⟩ := hp inp pos a p1 hpos he
      obtain ⟨hR, h3, h4⟩ := hq inp p1 b p2 h2 he2
      exact ⟨⟨hQ, hR⟩, Nat.le_trans h1 h3, h4⟩
    · cases hs
  · cases hs

theorem pignoreThen_out {α β : Type} {p : P α} {q : P β} {Q : Nat → α → Prop}
    {R : Nat → β → Prop} (hp : POutOK p Q) (hq : POutOK q R) :
    POutOK (pignoreThen p q) R :=
  pmap_out (pthen_out hp hq) _ (fun _ _ h => h.2)

theorem pthenIgnore_out {α β : Type} {p : P α} {q : P β} {Q : Nat → α → Prop}
    {R : Nat → β → Prop} (hp : POutOK p Q) (hq : POutOK q R) :
    POutOK (pthenIgnore p q) Q :=
  pmap_out (pthen_out hp hq) _ (fun _ _ h => h.1)

theorem pto_out {α β : Type} {p : P α} {Q : Nat → α → Prop} (hp : POutOK p Q) (b : β) :
    POutOK (pto p b) (fun _ _ => True) :=
  pmap_out hp _ (fun _ _ _ => trivial)

theorem pignored_out {α : Type} {p : P α} {Q : Nat → α → Prop} (hp : POutOK p Q) :
    POutOK (pignored p) (fun _ _ => True) := pto_out hp ()

theorem pornot_out {α : Type} {p : P α} {Q : Nat → α → Prop} (hp : POutOK p Q) :
    POutOK (pornot p) (fun len x => ∀ a ∈ x, Q len a) := by
  intro inp pos a pos' hpos hs
  unfold pornot at hs
  split at hs
  · rename_i b p1 he
    obtain ⟨rfl, rfl⟩ := Prod.mk.inj (Option.some.inj hs)
    obtain ⟨hQ, h1, h2⟩ := hp inp pos b p1 hpos he
    refine ⟨?_, h1, h2⟩
    intro x hx
    rw [Option.mem_def, Option.some.injEq] at hx
    exact hx ▸ hQ
  · obtain ⟨rfl, rfl⟩ := Prod.mk.inj (Option.some.inj hs)
    exact ⟨by simp, Nat.le_refl _, hpos⟩

theorem prewind_out {α : Type} {p : P α} {Q : Nat → α → Prop} (hp : POutOK p Q) :
    POutOK (prewind p) Q := by
  intro inp pos a pos' hpos hs
  unfold prewind at hs
  split at hs
  · rename_i b p1 he
    obtain ⟨rfl, rfl⟩ := Prod.mk.inj (Option.some.inj hs)
    exact ⟨(hp inp pos b p1 hpos he).1, Nat.le_refl _, hpos⟩
  · cases hs

theorem pend_out : POutOK pend (fun _ _ => True) := by
  intro inp pos a pos' hpos hs
  unfold pend at hs
  split at hs
  · obtain ⟨rfl, rfl⟩ := Prod.mk.inj (Option.some.inj hs)
    exact ⟨trivial, Nat.le_refl _, hpos⟩
  · cases hs

theorem pnot_out {α : Type} (p : P α) : POutOK (pnot p) (fun _ _ => True) := by
  intro inp pos a pos' hpos hs
  unfold pnot at hs
  split at hs
  · cases hs
  · split at hs
    · rename_i hg
      obtain ⟨rfl, rfl⟩ := Prod.mk.inj (Option.some.inj hs)
      exact ⟨trivial, Nat.le_succ _, (List.get?_eq_some.mp hg).1⟩
    · cases hs

theorem prepeatedCore_out {α : Type} {p : P α} {Q : Nat → α → Prop} (hp : POutOK p Q) :
    ∀ fuel (inp : List Char) pos, pos ≤ inp.length →
      (∀ x ∈ (prepeatedCore p fuel inp pos).1, Q inp.length x) ∧
      pos ≤ (prepeatedCore p fuel inp pos).2 ∧
      (prepeatedCore p fuel inp pos).2 ≤ inp.length := by
  intro fuel
  induction fuel with
  | zero =>
    intro inp pos hpos
    exact ⟨by simp [prepeatedCore], Nat.le_refl _, hpos⟩
  | succ n ih =>
    intro inp pos hpos
    unfold prepeatedCore
    split
    · exact ⟨by simp, Nat.le_refl _, hpos⟩
    · rename_i a p1 he
      obtain ⟨hQ, h1, h2⟩ := hp inp pos a p1 hpos he
      obtain ⟨hall, h3, h4⟩ := ih inp p1 h2
      refine ⟨?_, Nat.le_trans h1 h3, h4⟩
      intro x hx
      simp only [List.mem_cons] at hx
      rcases hx with rfl | hx
      · exact hQ
      · exact hall x hx

theorem patLeast_out {α : Type} {p : P α} {Q : Nat → α → Prop} (hp : POutOK p Q)
    (n : Nat) : POutOK (patLeast p n) (fun len xs => ∀ x ∈ xs, Q len x) := by
  intro inp pos a pos' hpos hs
  unfold patLeast at hs
  split at hs
  · obtain ⟨rfl, rfl⟩ := Prod.mk.inj (Option.some.inj hs)
    obtain ⟨hall, h1, h2⟩ := prepeatedCore_out hp (inp.length + 1) inp pos hpos
    exact ⟨hall, h1, h2⟩
  · cases hs

theorem psepByTail_out {α β : Type} {item : P α} {sep : P β} {Q : Nat → α → Prop}
    (hi : POutOK item Q) (hs : POutOK sep (fun _ _ => True)) :
    ∀ fuel (inp : List Char) pos, pos ≤ inp.length →
      (∀ x ∈ (psepByTail item sep fuel inp pos).1, Q inp.length x) ∧
      pos ≤ (psepByTail item sep fuel inp pos).2 ∧
      (psepByTail item sep fuel inp pos).2 ≤ inp.length := by
  intro fuel
  induction fuel with
  | zero =>
    intro inp pos hpos
    exact ⟨by simp [psepByTail], Nat.le_refl _, hpos⟩
  | succ n ih =>
    intro inp pos hpos
    unfold psepByTail
    split
    · exact ⟨by simp, Nat.le_refl _, hpos⟩
    · rename_i s1 p1 he1
      split
      · exact ⟨by simp, Nat.le_refl _, hpos⟩
      · rename_i a p2 he2
        obtain ⟨_, h1, h2⟩ := hs inp pos s1 p1 hpos he1
        obtain ⟨hQ, h3, h4⟩ := hi inp p1 a p2 h2 he2
        obtain ⟨hall, h5, h6⟩ := ih inp p2 h4
        refine ⟨?_, Nat.le_trans h1 (Nat.le_trans h3 h5), h6⟩
        intro x hx
        simp only [List.mem_cons] at hx
        rcases hx with rfl | hx
        · exact hQ
        · exact hall x hx

theorem psepOpt_out {β : Type} {sep : P β} (hsep : POutOK sep (fun _ _ => True))
    (b : Bool) : POutOK (psepOpt sep b) (fun _ _ => True) := by
  intro inp pos a pos' hpos hs
  unfold psepOpt at hs
  split at hs
  · split at hs
    · rename_i s1 p1 he
      obtain ⟨rfl, rfl⟩ := Prod.mk.inj (Option.some.inj hs)
      exact ⟨trivial, (hsep inp pos s1 p1 hpos he).2.1,
        (hsep inp pos s1 p1 hpos he).2.2⟩
    · obtain ⟨rfl, rfl⟩ := Prod.mk.inj (Option.some.inj hs)
      exact ⟨trivial, Nat.le_refl _, hpos⟩
  · obtain ⟨rfl, rfl⟩ := Prod.mk.inj (Option.some.inj hs)
    exact ⟨trivial, Nat.le_refl _, hpos⟩

theorem psepItems_out {α β : Type} {item : P α} {sep : P β} {Q : Nat → α → Prop}
    (hi : POutOK item Q) (hsep : POutOK sep (fun _ _ => True)) :
    POutOK (psepItems item sep) (fun len xs => ∀ x ∈ xs, Q len x) := by
  intro inp pos a pos' hpos hs
  unfold psepItems at hs
  split at hs
  · obtain ⟨rfl, rfl⟩ := Prod.mk.inj (Option.some.inj hs)
    exact ⟨by simp, Nat.le_refl _, hpos⟩
  · rename_i a0 p1 he0
    obtain ⟨rfl, rfl⟩ := Prod.mk.inj (Option.some.inj hs)
    obtain ⟨hQ0, h1, h2⟩ := hi inp pos a0 p1 hpos he0
    obtain ⟨hall, h3, h4⟩ := psepByTail_out hi hsep (inp.length + 1) inp p1 h2
    refine ⟨?_, Nat.le_trans h1 h3, h4⟩
    intro x hx
    simp only [List.mem_cons] at hx
    rcases hx with rfl | hx
    · exact hQ0
    · exact hall x hx

theorem psepBy_out {α β : Type} {item : P α} {sep : P β} {Q : Nat → α → Prop}
    (hi : POutOK item Q) (hsep : POutOK sep (fun _ _ => True)) (al at' : Bool) :
    POutOK (psepBy item sep al at') (fun len xs => ∀ x ∈ xs, Q len x) :=
  pthenIgnore_out (pignoreThen_out (psepOpt_out hsep al) (psepItems_out hi hsep))
    (psepOpt_out hsep at')

theorem pmapWithSpanPair_out {α : Type} {p : P α} {Q : Nat → α → Prop}
    (hp : POutOK p Q) :
    POutOK (pmapWithSpan p (fun v sp => (v, sp)))
      (fun len x => Q len x.1 ∧ SpanOK len x.2) := by
  intro inp pos a pos' hpos hs
  unfold pmapWithSpan at hs
  split at hs
  · rename_i b p1 he
    obtain ⟨rfl, rfl⟩ := Prod.mk.inj (Option.some.inj hs)
    obtain ⟨hQ, h1, h2⟩ := hp inp pos b p1 hpos he
    exact ⟨⟨hQ, h1, h2⟩, h1, h2⟩
  · cases hs

/-- Mapping with any function preserves the trivial output property. -/
theorem pmap_triv {α β : Type} {p : P α} {Q : Nat → α → Prop} (hp : POutOK p Q)
    (f : α → β) : POutOK (pmap p f) (fun _ _ => True) :=
  pmap_out hp f (fun _ _ _ => trivial)

/-! Bounds instances for every parser of the grammar, composed from the
combinator lemmas above. -/

theorem raw_token_char_out : POutOK raw_token_char (fun _ _ => True) := pfilter_out _

theorem escaped_char_out : POutOK escaped_char (fun _ _ => True) :=
  pignoreThen_out (pjust_out _) (pfilter_out _)

theorem newline_out : POutOK newline (fun _ _ => True) :=
  por_out (pjust_out _) (pignoreThen_out (pjust_out _) (pjust_out _))

theorem escaped_newline_out : POutOK escaped_newline (fun _ _ => True) :=
  pignoreThen_out (pjust_out _) newline_out

theorem token_char_out : POutOK token_char (fun _ _ => True) :=
  por_out
    (pmap_triv (por_out raw_token_char_out escaped_char_out) _)
    (pto_out escaped_newline_out _)

theorem unquoted_token_raw_out : POutOK unquoted_token_raw (fun _ _ => True) :=
  (patLeast_out token_char_out 1).weaken (fun _ _ _ => trivial)

theorem dquoted_token_raw_out : POutOK dquoted_token_raw (fun _ _ => True) :=
  pthenIgnore_out
    (pignoreThen_out (pjust_out _)
      ((patLeast_out
        (por_out token_char_out (pmap_triv (poneOf_out _) _))
        0).weaken (fun _ _ _ => trivial)))
    (pjust_out _)

theorem squoted_token_raw_out : POutOK squoted_token_raw (fun _ _ => True) :=
  pthenIgnore_out
    (pignoreThen_out (pjust_out _)
      ((patLeast_out
        (por_out token_char_out (pmap_triv (poneOf_out _) _))
        0).weaken (fun _ _ _ => trivial)))
    (pjust_out _)

theorem quoted_token_raw_out : POutOK quoted_token_raw (fun _ _ => True) :=
  por_out dquoted_token_raw_out squoted_token_raw_out

theorem mixed_token_out : POutOK mixed_token (fun _ _ => True) :=
  pmap_triv
    ((patLeast_out (por_out unquoted_token_raw_out quoted_token_raw_out) 1).weaken
      (fun _ _ _ => trivial))
    _

theorem separator_out : POutOK separator (fun _ _ => True) :=
  pignored_out (patLeast_out (poneOf_out _) 1)

theorem comment_out : POutOK comment (fun len x => SpanOK len x.2) :=
  (pmapWithSpanPair_out
    (pmap_triv
      (pignoreThen_out (pjust_out '#')
        ((patLeast_out (por_out escaped_newline_out (pnot_out _)) 0).weaken
          (fun _ _ _ => trivial)))
      _)).weaken
    (fun _ _ h => h.2)

theorem flags_list_out :
    POutOK flags_list (fun len xs => ∀ x ∈ xs, SpanOK len x.2) :=
  psepBy_out
    ((pmapWithSpanPair_out mixed_token_out).weaken (fun _ _ h => h.2))
    separator_out true true

theorem command_name_out : POutOK command_name (fun len x => SpanOK len x.2) :=
  (pmapWithSpanPair_out
    (pmap_triv ((patLeast_out (pfilter_out _) 1).weaken (fun _ _ _ => trivial)) _)).weaken
    (fun _ _ h => h.2)

theorem config_part_out :
    POutOK (pmapWithSpan (pignoreThen (pjust ':') mixed_token) (fun v sp => (v, sp)))
      (fun len x => SpanOK len x.2) :=
  (pmapWithSpanPair_out (pignoreThen_out (pjust_out _) mixed_token_out)).weaken
    (fun _ _ h => h.2)

theorem command_specifier_out :
    POutOK command_specifier
      (fun len x => SpanOK len x.1.2 ∧ ∀ y ∈ x.2, SpanOK len y.2) :=
  pthenIgnore_out
    (pthen_out (pignoreThen_out (pornot_out separator_out) command_name_out)
      (pornot_out config_part_out))
    (por_out (por_out separator_out (pignored_out (prewind_out newline_out))) pend_out)

theorem line_content_out : POutOK line_content (fun len l => LineOK len l) := by
  refine pmap_out
    (pthen_out
      (pmapWithSpanPair_out
        (pthen_out (pornot_out command_specifier_out) flags_list_out))
      (pornot_out comment_out))
    _ ?_
  intro len w
  obtain ⟨⟨⟨cc, tokens⟩, sp⟩, cmt⟩ := w
  intro hw
  obtain ⟨⟨⟨hcc, hflags⟩, hsp⟩, hcmt⟩ := hw
  refine ⟨?_, ?_, ?_, ?_, ?_⟩
  · intro x hx
    cases cc with
    | none => simp at hx
    | some y =>
      have hy := hcc y (by simp)
      simp only [Option.map_some', Option.mem_def, Option.some.injEq] at hx
      exact hx ▸ hy.1
  · intro x hx
    cases cc with
    | none => simp at hx
    | some y =>
      have hy := hcc y (by simp)
      cases hz : y.2 with
      | none => simp [hz, Option.join] at hx
      | some z =>
        have hzz := hy.2 z (by simp [hz])
        simp [hz, Option.join] at hx
        exact hx ▸ hzz
  · exact fun x hx => hflags x hx
  · intro x hx
    exact hcmt x hx
  · exact hsp

theorem parser_out : POutOK parser (fun len ls => ∀ l ∈ ls, LineOK len l) :=
  pthenIgnore_out (psepBy_out line_content_out newline_out false false) pend_out

/-! Evaluation lemmas: failure propagation and the behaviour of the grammar
at the end of the input, used to run the parser symbolically on families of
inputs. -/

theorem pmap_none {α β : Type} {p : P α} (f : α → β) {inp : List Char} {pos : Nat}
    (h : p inp pos = none) : pmap p f inp pos = none := by
  simp [pmap, h]

theorem por_none {α : Type} {p q : P α} {inp : List Char} {pos : Nat}
    (hp : p inp pos = none) (hq : q inp pos = none) : por p q inp pos = none := by
  simp [por, hp, hq]

theorem pthen_none1 {α β : Type} {p : P α} (q : P β) {inp : List Char} {pos : Nat}
    (h : p inp pos = none) : pthen p q inp pos = none := by
  simp [pthen, h]

theorem pto_none {α β : Type} {p : P α} (b : β) {inp : List Char} {pos : Nat}
    (h : p inp pos = none) : pto p b inp pos = none :=
  pmap_none _ h

theorem pignoreThen_none1 {α β : Type} {p : P α} (q : P β) {inp : List Char} {pos : Nat}
    (h : p inp pos = none) : pignoreThen p q inp pos = none :=
  pmap_none _ (pthen_none1 _ h)

theorem pthenIgnore_none1 {α β : Type} {p : P α} (q : P β) {inp : List Char} {pos : Nat}
    (h : p inp pos = none) : pthenIgnore p q inp pos = none :=
  pmap_none _ (pthen_none1 _ h)

theorem pmapWithSpan_none {α β : Type} {p : P α} (f : α → Span → β) {inp : List Char}
    {pos : Nat} (h : p inp pos = none) : pmapWithSpan p f inp pos = none := by
  simp [pmapWithSpan, h]

theorem patLeast_one_none {α : Type} {p : P α} {inp : List Char} {pos : Nat}
    (h : p inp pos = none) : patLeast p 1 inp pos = none := by
  have hz : prepeatedCore p (inp.length + 1) inp pos = ([], pos) := by
    simp [prepeatedCore, h]
  simp [patLeast, hz]

theorem list_get?_length (inp : List Char) : inp.get? inp.length = none :=
  List.get?_eq_none.mpr (Nat.le_refl _)

theorem pfilter_at_end (f : Char → Bool) (inp : List Char) :
    pfilter f inp inp.length = none := by
  simp [pfilter, list_get?_length]

theorem pjust_at_end (c : Char) (inp : List Char) : pjust c inp inp.length = none :=
  pfilter_at_end _ inp

theorem poneOf_at_end (s : List Char) (inp : List Char) :
    poneOf s inp inp.length = none :=
  pfilter_at_end _ inp

theorem raw_token_char_at_end (inp : List Char) :
    raw_token_char inp inp.length = none := pfilter_at_end _ inp

theorem escaped_char_at_end (inp : List Char) : escaped_char inp inp.length = none :=
  pignoreThen_none1 _ (pjust_at_end _ _)

theorem newline_at_end (inp : List Char) : newline inp inp.length = none :=
  por_none (pjust_at_end _ _) (pignoreThen_none1 _ (pjust_at_end _ _))

theorem escaped_newline_at_end (inp : List Char) :
    escaped_newline inp inp.length = none :=
  pignoreThen_none1 _ (pjust_at_end _ _)

theorem token_char_at_end (inp : List Char) : token_char inp inp.length = none :=
  por_none
    (pmap_none _ (por_none (raw_token_char_at_end _) (escaped_char_at_end _)))
    (pto_none _ (escaped_newline_at_end _))

theorem unquoted_token_raw_at_end (inp : List Char) :
    unquoted_token_raw inp inp.length = none :=
  patLeast_one_none (token_char_at_end _)

theorem dquoted_token_raw_at_end (inp : List Char) :
    dquoted_token_raw inp inp.length = none :=
  pthenIgnore_none1 _ (pignoreThen_none1 _ (pjust_at_end _ _))

theorem squoted_token_raw_at_end (inp : List Char) :
    squoted_token_raw inp inp.length = none :=
  pthenIgnore_none1 _ (pignoreThen_none1 _ (pjust_at_end _ _))

theorem mixed_token_at_end (inp : List Char) : mixed_token inp inp.length = none :=
  pmap_none _
    (patLeast_one_none
      (por_none (unquoted_token_raw_at_end _)
        (por_none (dquoted_token_raw_at_end _) (squoted_token_raw_at_end _))))

theorem separator_at_end (inp : List Char) : separator inp inp.length = none :=
  pmap_none _ (patLeast_one_none (poneOf_at_end _ _))

theorem comment_at_end (inp : List Char) : comment inp inp.length = none := by
  unfold comment
  exact pmapWithSpan_none _ (pmap_none _ (pignoreThen_none1 _ (pjust_at_end _ _)))

theorem flags_list_at_end (inp : List Char) :
    flags_list inp inp.length = some ([], inp.length) := by
  unfold flags_list psepBy
  simp [pthenIgnore, pignoreThen, pthen, pmap, psepOpt, psepItems, pmapWithSpan,
    separator_at_end, mixed_token_at_end]

theorem pend_at_end (inp : List Char) : pend inp inp.length = some ((), inp.length) := by
  simp [pend]

theorem prewind_none {α : Type} {p : P α} {inp : List Char} {pos : Nat}
    (h : p inp pos = none) : prewind p inp pos = none := by
  simp [prewind, h]

theorem pignored_none {α : Type} {p : P α} {inp : List Char} {pos : Nat}
    (h : p inp pos = none) : pignored p inp pos = none :=
  pto_none _ h

/-! Success-propagation equations for the combinators, used to run the
parser symbolically. -/

theorem pmap_eq {α β : Type} {p : P α} {f : α → β} {inp : List Char} {pos : Nat}
    {a : α} {pos1 : Nat} (hp : p inp pos = some (a, pos1)) :
    pmap p f inp pos = some (f a, pos1) := by
  simp [pmap, hp]

theorem pthen_eq {α β : Type} {p : P α} {q : P β} {inp : List Char} {pos : Nat}
    {a : α} {pos1 : Nat} {b : β} {pos2 : Nat} (hp : p inp pos = some (a, pos1))
    (hq : q inp pos1 = some (b, pos2)) : pthen p q inp pos = some ((a, b), pos2) := by
  simp [pthen, hp, hq]

theorem pignoreThen_eq {α β : Type} {p : P α} {q : P β} {inp : List Char} {pos : Nat}
    {a : α} {pos1 : Nat} {b : β} {pos2 : Nat} (hp : p inp pos = some (a, pos1))
    (hq : q inp pos1 = some (b, pos2)) : pignoreThen p q inp pos = some (b, pos2) :=
  pmap_eq (pthen_eq hp hq)

theorem pthenIgnore_eq {α β : Type} {p : P α} {q : P β} {inp : List Char} {pos : Nat}
    {a : α} {pos1 : Nat} {b : β} {pos2 : Nat} (hp : p inp pos = some (a, pos1))
    (hq : q inp pos1 = some (b, pos2)) : pthenIgnore p q inp pos = some (a, pos2) :=
  pmap_eq (pthen_eq hp hq)

theorem pmapWithSpan_eq {α β : Type} {p : P α} {f : α → Span → β} {inp : List Char}
    {pos : Nat} {a : α} {pos1 : Nat} (hp : p inp pos = some (a, pos1)) :
    pmapWithSpan p f inp pos = some (f a ⟨pos, pos1⟩, pos1) := by
  simp [pmapWithSpan, hp]

theorem pornot_some {α : Type} {p : P α} {inp : List Char} {pos : Nat} {a : α}
    {pos1 : Nat} (hp : p inp pos = some (a, pos1)) :
    pornot p inp pos = some (some a, pos1) := by
  simp [pornot, hp]

theorem pornot_of_none {α : Type} {p : P α} {inp : List Char} {pos : Nat}
    (hp : p inp pos = none) : pornot p inp pos = some (none, pos) := by
  simp [pornot, hp]

theorem por_first {α : Type} {p q : P α} {inp : List Char} {pos : Nat}
    {r : α × Nat} (hp : p inp pos = some r) : por p q inp pos = some r := by
  simp [por, hp]

theorem por_second {α : Type} {p q : P α} {inp : List Char} {pos : Nat}
    (hp : p inp pos = none) : por p q inp pos = q inp pos := by
  simp [por, hp]

theorem pto_eq {α β : Type} {p : P α} {b : β} {inp : List Char} {pos : Nat} {a : α}
    {pos1 : Nat} (hp : p inp pos = some (a, pos1)) : pto p b inp pos = some (b, pos1) :=
  pmap_eq hp

theorem prewind_eq {α : Type} {p : P α} {inp : List Char} {pos : Nat} {a : α}
    {pos1 : Nat} (hp : p inp pos = some (a, pos1)) :
    prewind p inp pos = some (a, pos) := by
  simp [prewind, hp]

theorem psepOpt_false {β : Type} (sep : P β) (inp : List Char) (pos : Nat) :
    psepOpt sep false inp pos = some ((), pos) := by
  simp [psepOpt]

theorem psepOpt_true_none {β : Type} {sep : P β} {inp : List Char} {pos : Nat}
    (h : sep inp pos = none) : psepOpt sep true inp pos = some ((), pos) := by
  simp [psepOpt, h]

theorem psepOpt_true_some {β : Type} {sep : P β} {inp : List Char} {pos : Nat}
    {s : β} {pos1 : Nat} (h : sep inp pos = some (s, pos1)) :
    psepOpt sep true inp pos = some ((), pos1) := by
  simp [psepOpt, h]

theorem psepItems_of_none {α β : Type} {item : P α} (sep : P β) {inp : List Char}
    {pos : Nat} (h : item inp pos = none) :
    psepItems item sep inp pos = some ([], pos) := by
  simp [psepItems, h]

theorem psepItems_eq {α β : Type} {item : P α} {sep : P β} {inp : List Char}
    {pos : Nat} {a : α} {pos1 : Nat} (h : item inp pos = some (a, pos1)) :
    psepItems item sep inp pos =
      some (a :: (psepByTail item sep (inp.length + 1) inp pos1).1,
        (psepByTail item sep (inp.length + 1) inp pos1).2) := by
  simp [psepItems, h]

theorem psepByTail_stop {α β : Type} {item : P α} {sep : P β} (fuel : Nat)
    {inp : List Char} {pos : Nat} (h : sep inp pos = none) :
    psepByTail item sep fuel inp pos = ([], pos) := by
  cases fuel with
  | zero => simp [psepByTail]
  | succ n => simp [psepByTail, h]

/-! Symbolic run of the parser on an input that is a single nonempty run of
alphabetic characters: the whole input is consumed as the command. -/

theorem prepeatedCore_pfilter_all {f : Char → Bool} :
    ∀ fuel (inp : List Char) pos, (∀ c ∈ inp, f c = true) → pos ≤ inp.length →
      inp.length - pos < fuel →
      prepeatedCore (pfilter f) fuel inp pos = (inp.drop pos, inp.length) := by
  intro fuel
  induction fuel with
  | zero => intro inp pos _ _ hf; omega
  | succ n ih =>
    intro inp pos hall hpos hf
    rcases Nat.eq_or_lt_of_le hpos with heq | hlt
    · have hg : inp[pos]? = none := List.getElem?_eq_none (Nat.le_of_eq heq.symm)
      simp [prepeatedCore, pfilter, hg, heq, List.drop_length]
    · have hg : inp[pos]? = some inp[pos] := List.getElem?_eq_getElem hlt
      have hfc : f inp[pos] = true := hall _ (List.getElem_mem hlt)
      have hsome : pfilter f inp pos = some (inp[pos], pos + 1) := by
        simp [pfilter, hg, hfc]
      have hrec := ih inp (pos + 1) hall hlt (by omega)
      simp only [prepeatedCore, hsome, hrec]
      rw [List.drop_eq_getElem_cons hlt]

theorem command_name_all_alpha {inp : List Char} (hne : inp ≠ [])
    (hall : ∀ c ∈ inp, c.isAlpha = true) :
    command_name inp 0 = some ((String.mk inp, ⟨0, inp.length⟩), inp.length) := by
  have hrun := prepeatedCore_pfilter_all (inp.length + 1) inp 0 hall (Nat.zero_le _)
    (by omega)
  rw [List.drop_zero] at hrun
  have hpat : patLeast (pfilter Char.isAlpha) 1 inp 0 = some (inp, inp.length) := by
    unfold patLeast
    rw [hrun]
    simp [hne]
  exact pmapWithSpan_eq (pmap_eq hpat)

theorem separator_none_at_alpha {inp : List Char} {pos : Nat} {c : Char}
    (hg : inp[pos]? = some c) (hc : c.isAlpha = true) : separator inp pos = none := by
  have hc1 : c ≠ ' ' := fun h => by subst h; revert hc; decide
  have hc2 : c ≠ '\t' := fun h => by subst h; revert hc; decide
  have h1 : poneOf [' ', '\t'] inp pos = none := by
    simp [poneOf, pfilter, hg, hc1, hc2]
  exact pmap_none _ (patLeast_one_none h1)

theorem command_specifier_all_alpha {inp : List Char} (hne : inp ≠ [])
    (hall : ∀ c ∈ inp, c.isAlpha = true) :
    command_specifier inp 0 =
      some (((String.mk inp, ⟨0, inp.length⟩), none), inp.length) := by
  have hsep0 : separator inp 0 = none := by
    cases inp with
    | nil => exact absurd rfl hne
    | cons c t => exact separator_none_at_alpha (by simp) (hall c (by simp))
  have hA1 : pignoreThen (pornot separator) command_name inp 0 =
      some ((String.mk inp, ⟨0, inp.length⟩), inp.length) :=
    pignoreThen_eq (pornot_of_none hsep0) (command_name_all_alpha hne hall)
  have hA2 : pornot
      (pmapWithSpan (pignoreThen (pjust ':') mixed_token) (fun v sp => (v, sp)))
      inp inp.length = some (none, inp.length) :=
    pornot_of_none (pmapWithSpan_none _ (pignoreThen_none1 _ (pjust_at_end _ _)))
  have hB : por (por separator (pignored (prewind newline))) pend inp inp.length =
      some ((), inp.length) :=
    (por_second (por_none (separator_at_end _)
      (pignored_none (prewind_none (newline_at_end _))))).trans (pend_at_end _)
  exact pthenIgnore_eq (pthen_eq hA1 hA2) hB

theorem line_content_all_alpha {inp : List Char} (hne : inp ≠ [])
    (hall : ∀ c ∈ inp, c.isAlpha = true) :
    line_content inp 0 =
      some ({ command := some (String.mk inp, ⟨0, inp.length⟩),
              span := ⟨0, inp.length⟩ }, inp.length) := by
  have h1 : pthen (pornot command_specifier) flags_list inp 0 =
      some ((some ((String.mk inp, ⟨0, inp.length⟩), none), []), inp.length) :=
    pthen_eq (pornot_some (command_specifier_all_alpha hne hall)) (flags_list_at_end _)
  have h2 : pthen
      (pmapWithSpan (pthen (pornot command_specifier) flags_list) (fun v sp => (v, sp)))
      (pornot comment) inp 0 =
      some ((((some ((String.mk inp, ⟨0, inp.length⟩), none), ([] : List (Spanned String))),
        (⟨0, inp.length⟩ : Span)), none), inp.length) :=
    pthen_eq (pmapWithSpan_eq h1) (pornot_of_none (comment_at_end inp))
  exact pmap_eq h2

theorem parse_all_alpha {inp : List Char} (hne : inp ≠ [])
    (hall : ∀ c ∈ inp, c.isAlpha = true) :
    parse (String.mk inp) =
      some [{ command := some (String.mk inp, ⟨0, inp.length⟩),
              span := ⟨0, inp.length⟩ }] := by
  have hitems : psepItems line_content newline inp 0 =
      some ([{ command := some (String.mk inp, ⟨0, inp.length⟩),
               span := ⟨0, inp.length⟩ }], inp.length) := by
    rw [psepItems_eq (line_content_all_alpha hne hall),
      psepByTail_stop _ (newline_at_end _)]
  have hparser : parser inp 0 =
      some ([{ command := some (String.mk inp, ⟨0, inp.length⟩),
               span := ⟨0, inp.length⟩ }], inp.length) :=
    pthenIgnore_eq
      (pthenIgnore_eq (pignoreThen_eq (psepOpt_false _ _ _) hitems)
        (psepOpt_false _ _ _))
      (pend_at_end _)
  unfold parse
  rw [show (String.mk inp).data = inp from rfl, hparser]

/-! Lemmas about the flag index: every index stored by `from_flags` points
into the `flags` vector, and with distinct names the name index maps each
flag's name to its position. -/

theorem hmLookup_mem {α : Type} {m : List (String × α)} {k : String} {v : α}
    (h : hmLookup m k = some v) : ∃ p ∈ m, p.1 = k ∧ p.2 = v := by
  unfold hmLookup at h
  cases hf : m.find? (fun p => p.1 == k) with
  | none => rw [hf] at h; cases h
  | some q =>
    rw [hf] at h
    refine ⟨q, List.mem_of_find?_eq_some hf, ?_, ?_⟩
    · have := List.find?_some hf
      simpa using this
    · simpa using h

theorem cmd_fold_below {N i : Nat} (hi : i < N) :
    ∀ (cs : List String) (m : List (String × List Nat)), CmdIdxBelow N m →
      CmdIdxBelow N
        (cs.foldl (fun m c => hmInsert m c ((hmLookup m c).getD [] ++ [i])) m) := by
  intro cs
  induction cs with
  | nil => intro m hm; exact hm
  | cons c cs ih =>
    intro m hm
    apply ih
    intro p hp
    rcases List.mem_cons.1 hp with rfl | hp
    · intro j hj
      rcases List.mem_append.1 hj with hj | hj
      · cases hl : hmLookup m c with
        | none => rw [hl] at hj; cases hj
        | some l =>
          rw [hl] at hj
          obtain ⟨q, hq, _, hqv⟩ := hmLookup_mem hl
          exact hm q hq j (hqv ▸ hj)
      · simp only [List.mem_singleton] at hj
        exact hj ▸ hi
    · exact hm p hp

theorem foldl_step_below {N : Nat} :
    ∀ (l : List (Nat × FlagInfo)) (acc : FlagMaps),
      (∀ p ∈ l, p.1 < N) → CmdIdxBelow N acc.1 → NameIdxBelow N acc.2.1 →
      NameIdxBelow N acc.2.2 →
      CmdIdxBelow N (l.foldl from_flags_step acc).1 ∧
      NameIdxBelow N (l.foldl from_flags_step acc).2.1 ∧
      NameIdxBelow N (l.foldl from_flags_step acc).2.2 := by
  intro l
  induction l with
  | nil => intro acc _ h1 h2 h3; exact ⟨h1, h2, h3⟩
  | cons q l ih =>
    intro acc hl h1 h2 h3
    rw [List.foldl_cons]
    have hq : q.1 < N := hl q (List.mem_cons_self _ _)
    refine ih _ (fun p hp => hl p (List.mem_cons_of_mem _ hp)) ?_ ?_ ?_
    · exact cmd_fold_below hq _ _ h1
    · intro p hp
      rcases List.mem_cons.1 hp with rfl | hp
      · exact hq
      · exact h2 p hp
    · show NameIdxBelow N
        (match q.2.abbreviation with
          | some a => hmInsert acc.2.2 a q.1
          | none => acc.2.2)
      cases q.2.abbreviation with
      | none => exact h3
      | some a =>
        intro p hp
        rcases List.mem_cons.1 hp with rfl | hp
        · exact hq
        · exact h3 p hp

theorem enum_fst_lt {l : List FlagInfo} {p : Nat × FlagInfo} (hp : p ∈ l.enum) :
    p.1 < l.length := by
  obtain ⟨m, hm⟩ := List.mem_iff_getElem?.1 hp
  rw [show l.enum = l.enumFrom 0 from rfl, List.getElem?_enumFrom] at hm
  cases hg : l[m]? with
  | none => rw [hg] at hm; cases hm
  | some a =>
    rw [hg] at hm
    simp only [Option.map_some', Option.some.injEq] at hm
    have hmlt : m < l.length := (List.getElem?_eq_some.1 hg).1
    have : p.1 = 0 + m := by rw [← hm]
    omega

theorem from_flags_below (fs : List FlagInfo) :
    CmdIdxBelow fs.length (from_flags fs).flags_by_commands ∧
    NameIdxBelow fs.length (from_flags fs).flags_by_name ∧
    NameIdxBelow fs.length (from_flags fs).flags_by_abbreviation := by
  have h := foldl_step_below fs.enum ([], [], [])
    (fun p hp => enum_fst_lt hp)
    (fun p hp => absurd hp (List.not_mem_nil _))
    (fun p hp => absurd hp (List.not_mem_nil _))
    (fun p hp => absurd hp (List.not_mem_nil _))
  exact h

theorem fold_byName_skip :
    ∀ (l : List (Nat × FlagInfo)) (acc : FlagMaps) (k : String),
      (∀ p ∈ l, p.2.name ≠ k) →
      hmLookup (l.foldl from_flags_step acc).2.1 k = hmLookup acc.2.1 k := by
  intro l
  induction l with
  | nil => intro acc k _; rfl
  | cons q l ih =>
    intro acc k hk
    rw [List.foldl_cons, ih _ _ (fun p hp => hk p (List.mem_cons_of_mem _ hp))]
    show hmLookup (hmInsert acc.2.1 q.2.name q.1) k = hmLookup acc.2.1 k
    have hne : (q.2.name == k) = false :=
      beq_eq_false_iff_ne.mpr (hk q (List.mem_cons_self _ _))
    simp [hmInsert, hmLookup, List.find?, hne]

theorem fold_byName_found :
    ∀ (l : List (Nat × FlagInfo)) (acc : FlagMaps) (i : Nat) (f : FlagInfo),
      (i, f) ∈ l → (l.map (fun p => p.2.name)).Nodup →
      hmLookup (l.foldl from_flags_step acc).2.1 f.name = some i := by
  intro l
  induction l with
  | nil => intro acc i f h _; cases h
  | cons q l ih =>
    intro acc i f hmem hnd
    have hnd' := hnd
    rw [List.map_cons, List.nodup_cons] at hnd'
    rcases List.mem_cons.1 hmem with heq | hmem'
    · obtain rfl := heq.symm
      rw [List.foldl_cons]
      have hnotin : ∀ p ∈ l, p.2.name ≠ f.name := by
        intro p hp hcontra
        exact hnd'.1 (hcontra ▸ List.mem_map_of_mem (fun p => p.2.name) hp)
      rw [fold_byName_skip l _ _ hnotin]
      show hmLookup (hmInsert acc.2.1 f.name i) f.name = some i
      simp [hmInsert, hmLookup, List.find?]
    · rw [List.foldl_cons]
      exact ih _ i f hmem' hnd'.2

theorem enum_names_nodup {fs : List FlagInfo}
    (h : (fs.map FlagInfo.name).Nodup) :
    (fs.enum.map (fun p => p.2.name)).Nodup := by
  have : fs.enum.map (fun p => p.2.name) = fs.map FlagInfo.name := by
    rw [show (fun (p : Nat × FlagInfo) => p.2.name) =
      (FlagInfo.name ∘ Prod.snd) from rfl]
    rw [← List.map_map, show fs.enum = fs.enumFrom 0 from rfl,
      List.enumFrom_map_snd]
  rw [this]
  exact h

theorem mem_enum_of_getElem? {fs : List FlagInfo} {i : Nat} {f : FlagInfo}
    (h : fs[i]? = some f) : (i, f) ∈ fs.enum := by
  apply List.mem_iff_getElem?.2
  refine ⟨i, ?_⟩
  rw [show fs.enum = fs.enumFrom 0 from rfl, List.getElem?_enumFrom, h]
  simp

theorem gbi_long_lookup (fs : List FlagInfo) (f : FlagInfo)
    (hnd : (fs.map FlagInfo.name).Nodup) (hf : f ∈ fs)
    (hh : f.name.data.head? ≠ some '-') (hl : f.name.data.getLast? ≠ some '=') :
    get_by_invocation (from_flags fs) ("--" ++ f.name) = some (some f) := by
  obtain ⟨i, hg⟩ := List.mem_iff_getElem?.1 hf
  have hmem := mem_enum_of_getElem? hg
  have hlook : hmLookup (from_flags fs).flags_by_name f.name = some i :=
    fold_byName_found fs.enum ([], [], []) i f hmem (enum_names_nodup hnd)
  have hdata : ("--" ++ f.name).data = '-' :: '-' :: f.name.data := by
    rw [String.data_append]
    rfl
  have hstrip : rustStripSuffixEq ('-' :: '-' :: f.name.data) =
      '-' :: '-' :: f.name.data := by
    unfold rustStripSuffixEq
    rw [if_neg]
    cases hd : f.name.data with
    | nil => decide
    | cons c cs =>
      rw [List.getLast?_cons_cons, List.getLast?_cons_cons]
      rw [hd] at hl
      exact hl
  have hmk : String.mk f.name.data = f.name := rfl
  have hflags : (from_flags fs).flags = fs := rfl
  simp only [get_by_invocation, hdata, hstrip]
  rw [if_neg hh, hmk, hlook, hflags]
  simp only [List.get?_eq_getElem?, hg]

theorem gbi_triple_dash (bf : BazelFlags) (rest : List Char) :
    get_by_invocation bf (String.mk ('-' :: '-' :: '-' :: rest)) = some none := by
  have hstrip : ∃ t, rustStripSuffixEq ('-' :: '-' :: '-' :: rest) =
      '-' :: '-' :: '-' :: t := by
    unfold rustStripSuffixEq
    split
    · rename_i hlast
      cases rest with
      | nil => cases hlast
      | cons r rs =>
        refine ⟨(r :: rs).dropLast, ?_⟩
        simp [List.dropLast]
    · exact ⟨rest, rfl⟩
  obtain ⟨t, ht⟩ := hstrip
  simp only [get_by_invocation,
    show (String.mk ('-' :: '-' :: '-' :: rest)).data = '-' :: '-' :: '-' :: rest from
      rfl, ht]
  simp [List.head?]

theorem gbi_no_dash (bf : BazelFlags) (cs : List Char) (h : cs.head? ≠ some '-') :
    get_by_invocation bf (String.mk cs) = some none := by
  have hstrip : (rustStripSuffixEq cs).head? ≠ some '-' := by
    unfold rustStripSuffixEq
    split
    · cases cs with
      | nil => simp
      | cons a l =>
        cases l with
        | nil => simp
        | cons b m =>
          simp only [List.head?] at h
          simp [List.dropLast, List.head?, h]
    · exact h
  cases hs : rustStripSuffixEq cs with
  | nil =>
    simp only [get_by_invocation, show (String.mk cs).data = cs from rfl, hs]
  | cons c t =>
    have hc : c ≠ '-' := by
      rw [hs] at hstrip
      simpa using hstrip
    simp only [get_by_invocation, show (String.mk cs).data = cs from rfl, hs]
    split
    · rename_i heq
      exact absurd (List.cons.inj heq).1 hc
    · rename_i heq
      exact absurd (List.cons.inj heq).1 hc
    · rfl

/-! Claim theorems. -/

/-- C1 counterexample: parsing is not total.  The input `'my<LF>token'`
(a bare line terminator inside an open quote, the input of the repository's
own `test_flag_parsing`) makes the whole parse fail: no tokens, no lines,
no best-effort result. -/
theorem parse_fails_on_bare_newline_in_quote :
    parse (String.mk ['\'', 'm', 'y', '\n', 't', 'o', 'k', 'e', 'n', '\'']) = none := by
  decide

/-- C1 (amended): parsing is not total.  A bare line terminator inside an
open quote and an unterminated quote (single or double) each make the whole
parse fail with an error and no line structure, while a well-formed input
parses successfully. -/
theorem parse_not_total :
    parse (String.mk ['\'', 'a', 'b', 'c']) = none ∧
    parse "\"ab" = none ∧
    parse "b -c" =
      some [{ command := some ("b", ⟨0, 1⟩), flags := [("-c", ⟨2, 4⟩)],
              span := ⟨0, 4⟩ }] := by
  refine ⟨by decide, by decide, by decide⟩

/-- C2 counterexample: re-applying the decode rules to the raw slice does
not reproduce the decoded text.  For `cmd:my-config` the config is decoded
as `my-config` with span `3..13`, but the raw slice `source[3..13]` is
`:my-config`, which decodes (by the spec's own rules) to `:my-config`,
not to `my-config`: the config span includes the `:` separator. -/
theorem config_slice_includes_separator :
    (parse "cmd:my-config").map (List.map Line.config) =
      some [some ("my-config", ⟨3, 13⟩)] ∧
    String.mk (("cmd:my-config".data.drop 3).take (13 - 3)) = ":my-config" ∧
    specDecodeToken ":my-config".data = some ":my-config".data ∧
    (":my-config" : String) ≠ "my-config" := by
  refine ⟨by decide, by decide, by decide, by decide⟩

/-- C2 (amended): every span in the parse output satisfies
`0 ≤ start ≤ end ≤ len(source)` (offsets count characters, the unit of the
chumsky `char` stream); the decode-roundtrip half of the claim fails, as
the counterexample shows, because config spans include the leading `:`
separator (and comment spans the leading `#`). -/
theorem parse_spans_inbounds (s : String) (lines : List Line)
    (h : parse s = some lines) : ∀ l ∈ lines, LineOK s.data.length l := by
  unfold parse at h
  split at h
  · rename_i v p hv
    cases h
    exact fun l hl => (parser_out s.data 0 _ p (Nat.zero_le _) hv).1 l hl
  · cases h

/-- C2 witness: the span-bounds theorem applied to `cmd:my-config`. -/
theorem parse_spans_inbounds_witness :
    LineOK 13 ⟨some ("cmd", ⟨0, 3⟩), some ("my-config", ⟨3, 13⟩), [], none, ⟨0, 13⟩⟩ :=
  parse_spans_inbounds "cmd:my-config"
    [⟨some ("cmd", ⟨0, 3⟩), some ("my-config", ⟨3, 13⟩), [], none, ⟨0, 13⟩⟩]
    (by decide)
    ⟨some ("cmd", ⟨0, 3⟩), some ("my-config", ⟨3, 13⟩), [], none, ⟨0, 13⟩⟩
    (List.mem_singleton_self _)

/-- C3 counterexample: flags are not decomposed into name and value.  For
`build:opt --x=y` the produced flag is the single spanned string `--x=y`
(the `=` still inside it); the `Line` record stores flags as
`Vec<Spanned<String>>`, with no name/value fields at all. -/
theorem flags_keep_equals_sign :
    parse "build:opt --x=y" =
      some [{ command := some ("build", ⟨0, 5⟩), config := some ("opt", ⟨5, 9⟩),
              flags := [("--x=y", ⟨10, 15⟩)], span := ⟨0, 15⟩ }] ∧
    "--x=y".data.contains '=' = true := by
  refine ⟨by decide, by decide⟩

/-- C3 (amended): every non-command text token of a line becomes a flag
stored as the whole decoded token string with its span; no split at `=`
is performed, and dashed and positional tokens are stored the same way. -/
theorem flags_are_whole_tokens :
    parse "cmd --x=y w" =
      some [{ command := some ("cmd", ⟨0, 3⟩),
              flags := [("--x=y", ⟨4, 9⟩), ("w", ⟨10, 11⟩)], span := ⟨0, 11⟩ }] := by
  decide

/-- C4 counterexample: a first token whose decoded content does not start
with `-` need not be a command.  `9abc` does not start with `-`, yet it is
parsed as a (positional) flag and the line has no command, because the
command parser accepts only alphabetic characters. -/
theorem nondash_token_not_command :
    parse "9abc" =
      some [{ flags := [("9abc", ⟨0, 4⟩)], span := ⟨0, 4⟩ }] ∧
    "9abc".data.head? ≠ some '-' := by
  refine ⟨by decide, by decide⟩

/-- C4 (amended): the first token of a line is treated as the command
exactly when it is a nonempty run of alphabetic characters (optionally
followed by a `:config` suffix) terminated by whitespace, a newline or the
end of input: every nonempty all-alphabetic input parses as a lone command
spanning the whole input, while a token starting with `-` (not alphabetic)
becomes the first flag of a command-less line. -/
theorem command_iff_alphabetic_run :
    (∀ cs : List Char, cs ≠ [] → (∀ c ∈ cs, c.isAlpha = true) →
      parse (String.mk cs) =
        some [{ command := some (String.mk cs, ⟨0, cs.length⟩),
                span := ⟨0, cs.length⟩ }]) ∧
    parse "-x" =
      some [{ flags := [("-x", ⟨0, 2⟩)], span := ⟨0, 2⟩ }] :=
  ⟨fun _ h1 h2 => parse_all_alpha h1 h2, by decide⟩

/-- C4 witness: the alphabetic-run half applied to the input `cmd`. -/
theorem command_iff_alphabetic_run_witness :
    parse (String.mk "cmd".data) =
      some [{ command := some (String.mk "cmd".data, ⟨0, "cmd".data.length⟩),
              span := ⟨0, "cmd".data.length⟩ }] :=
  command_iff_alphabetic_run.1 "cmd".data (by decide) (by decide)

/-- C5 counterexample: the line count is not always terminators plus one.
On `a"b` (an unterminated quote, zero line terminators) the parse fails and
produces no `Line` records at all, not the one record the claim
requires. -/
theorem line_count_not_plus_one_on_error :
    ¬ (((parse "a\"b").getD []).length =
      specLineTerminatorCount "a\"b".data + 1) := by
  decide

/-- C5 (amended): when the parse succeeds the lines match the source lines:
the spec's example `cmd\n\r\n\ncmd -x \n` (15 characters, not 10) has four
unescaped terminators (`\n` and `\r\n` both recognized) and parses to five
lines `[cmd]`, `[]`, `[]`, `[cmd, -x]`, `[]`, blank lines preserved in
source order and the trailing terminator yielding a trailing empty line;
when the parse fails, no lines are produced at all. -/
theorem blank_lines_and_terminator_count :
    parse "cmd\n\r\n\ncmd -x \n" =
      some [{ command := some ("cmd", ⟨0, 3⟩), span := ⟨0, 3⟩ },
        { span := ⟨4, 4⟩ }, { span := ⟨6, 6⟩ },
        { command := some ("cmd", ⟨7, 10⟩), flags := [("-x", ⟨11, 13⟩)],
          span := ⟨7, 14⟩ },
        { span := ⟨15, 15⟩ }] ∧
    specLineTerminatorCount "cmd\n\r\n\ncmd -x \n".data = 4 ∧
    ((parse "cmd\n\r\n\ncmd -x \n").getD []).length =
      specLineTerminatorCount "cmd\n\r\n\ncmd -x \n".data + 1 := by
  refine ⟨by decide, by decide, by decide⟩

/-- C6 counterexample: an escaped line terminator inside a comment does not
contribute zero characters, and comment content is not escape-decoded.  On
the repository's own test input ` # my\<LF>co\mment` the comment decodes
to ` my<LF>co\mment` (the continuation contributed a `\n`, the `\m`
backslash survived), not to the ` mycomment` the claim predicts. -/
theorem comment_continuation_keeps_newline :
    parse " # my\\\nco\\mment" =
      some [{ comment := some (" my\nco\\mment", ⟨1, 15⟩), span := ⟨0, 1⟩ }] ∧
    (" my\nco\\mment" : String) ≠ " mycomment" := by
  refine ⟨by decide, by decide⟩

/-- C6 (amended): an escaped line terminator inside a comment continues the
comment onto the next physical line and contributes exactly one `\n`
character to its content; all other characters, backslashes included, are
taken verbatim (no escape decoding); a bare terminator ends the comment and
is not included in its span. -/
theorem comment_escaped_newline_verbatim :
    parse "#ab\\\ncd\\ef\ng" =
      some [{ comment := some ("ab\ncd\\ef", ⟨0, 10⟩), span := ⟨0, 0⟩ },
        { command := some ("g", ⟨11, 12⟩), span := ⟨11, 12⟩ }] ∧
    ("ab\ncd\\ef" : String) ≠ "abcdef" := by
  refine ⟨by decide, by decide⟩

/-- C7: parsing `cmd:my-config` yields one line with command `cmd` spanning
`0..3` and config `my-config` spanning `3..13`; the two spans are disjoint
half-open intervals and the config span starts exactly where the command
span stops. -/
theorem command_config_split_spans :
    parse "cmd:my-config" =
      some [{ command := some ("cmd", ⟨0, 3⟩), config := some ("my-config", ⟨3, 13⟩),
              span := ⟨0, 13⟩ }] ∧
    (⟨0, 3⟩ : Span).stop = (⟨3, 13⟩ : Span).start := by
  refine ⟨by decide, rfl⟩

/-- C8: parsing is deterministic and pure.  The embedded parser is a
mathematical function of the input string (the Rust `parser()` builds its
combinator tree from constants and reads no global state), so two
invocations on the same source are structurally equal. -/
theorem parse_deterministic (s : String) : parse s = parse s := rfl

/-- C9 counterexample: the lookup does not strip arbitrary leading dashes
and try both indices.  With a single flag named `foo`, the invocation
`-foo` (one dash) returns nothing even though `foo` is a known flag name,
because a single dash consults only the abbreviation index. -/
theorem single_dash_not_looked_up_by_name :
    get_by_invocation (from_flags [{ name := "foo", commands := ["build"] }]) "-foo"
      = some none ∧
    hmLookup (from_flags [{ name := "foo", commands := ["build"] }]).flags_by_name
      "foo" = some 0 := by
  refine ⟨by decide, by decide⟩

/-- C9 (amended): the lookup strips a single trailing `=`; an invocation
starting with exactly `--` is looked up by exact name (three or more
dashes yield nothing), one starting with exactly `-` by exact abbreviation,
and an invocation with no leading dash yields nothing; the other index is
never consulted. -/
theorem get_by_invocation_characterization :
    (∀ (fs : List FlagInfo) (f : FlagInfo),
      (fs.map FlagInfo.name).Nodup → f ∈ fs →
      f.name.data.head? ≠ some '-' → f.name.data.getLast? ≠ some '=' →
      get_by_invocation (from_flags fs) ("--" ++ f.name) = some (some f)) ∧
    (∀ (bf : BazelFlags) (rest : List Char),
      get_by_invocation bf (String.mk ('-' :: '-' :: '-' :: rest)) = some none) ∧
    (∀ (bf : BazelFlags) (cs : List Char), cs.head? ≠ some '-' →
      get_by_invocation bf (String.mk cs) = some none) :=
  ⟨gbi_long_lookup, gbi_triple_dash, gbi_no_dash⟩

/-- C9 witness: the name-lookup half applied to a one-flag index. -/
theorem get_by_invocation_characterization_witness :
    get_by_invocation (from_flags [{ name := "foo", commands := ["build"] }]) "--foo"
      = some (some { name := "foo", commands := ["build"] }) :=
  get_by_invocation_characterization.1 [{ name := "foo", commands := ["build"] }]
    { name := "foo", commands := ["build"] } (by decide) (by decide) (by decide)
    (by decide)

/-- C10: every index stored by `from_flags` in the command, name and
abbreviation maps is strictly below the length of the flag vector, and
consequently `get_by_invocation` never reaches the panicking
`flags.get(*i).unwrap()` with an out-of-bounds index: its result is always
`some r` (the model encodes a panic as `none`). -/
theorem from_flags_indices_inbounds (fs : List FlagInfo) :
    (CmdIdxBelow fs.length (from_flags fs).flags_by_commands ∧
     NameIdxBelow fs.length (from_flags fs).flags_by_name ∧
     NameIdxBelow fs.length (from_flags fs).flags_by_abbreviation) ∧
    ∀ s : String, (get_by_invocation (from_flags fs) s).isSome = true := by
  refine ⟨from_flags_below fs, ?_⟩
  intro s
  unfold get_by_invocation
  split
  · split
    · rfl
    · split
      · rfl
      · rename_i hnotdash i hl
        obtain ⟨p, hp, _, hpv⟩ := hmLookup_mem hl
        have hi : i < fs.length := hpv ▸ (from_flags_below fs).2.1 p hp
        have hg : (from_flags fs).flags[i]? = some fs[i] :=
          List.getElem?_eq_getElem hi
        simp [hg]
  · split
    · rfl
    · split
      · rfl
      · rename_i hnotdash i hl
        obtain ⟨p, hp, _, hpv⟩ := hmLookup_mem hl
        have hi : i < fs.length := hpv ▸ (from_flags_below fs).2.2 p hp
        have hg : (from_flags fs).flags[i]? = some fs[i] :=
          List.getElem?_eq_getElem hi
        simp [hg]
  · rfl

end Bazelrc
